import Mathlib

/-!
Verification of the Universal AI Gateway dispatch core.

This file gives a shallow embedding, in Lean 4, of the parts of the gateway
that the checked properties talk about:

* the per-provider credential pool (`core/providers/key_manager.py`),
* the unary and streaming key-rotation loops (`core/api/services.py`),
* the streaming fallback logic of `route_request` (`core/api/services.py`),
* the agent driver's key acquisition (`core/engine/manager.py`),
* the rotation-index backends (`core/providers/rotation_manager.py`),
* the chain construction for load-balanced aliases
  (`core/api/services.py` and `core/api/routes/chat.py`),
* message normalization (`core/providers/utils/normalization.py`),
* the response-cache admission validator and read path
  (`core/common/cache_validator.py`, `core/api/services.py`).

Python strings that are only compared for equality are modelled as `String`;
strings that are stripped or scanned character by character are modelled as
`List Char`.  API keys are opaque and modelled as `Nat`.  External library
calls (`json.loads`, pydantic validation) are modelled as function
parameters.  Asynchronous generators are modelled by the finite sequence of
chunks they yield followed by how they terminate.
-/

/-! ## Credential pool (`ApiKeyManager`, key_manager.py)

A pool is the per-provider record built in `__init__` / `_init_provider_pool`:
an `available` FIFO queue, a `quarantined` map (key to quarantine end time;
the reason string is never read back and is elided), a `retired` map (modelled
as the list of its keys), and the `total_keys` counter.  Quarantine is
enabled (`ENABLE_QUARANTINE = True`). -/

structure Pool where
  available : List Nat
  quarantined : List (Nat × Nat)
  retired : List Nat
  totalKeys : Nat
deriving DecidableEq, Repr

/-- The keys of the `quarantined` map. -/
def Pool.qKeys (p : Pool) : List Nat := p.quarantined.map Prod.fst

/-- Dict assignment `pool["quarantined"][key] = {..., "end_time": t}`:
overwrite the entry if the key is present, otherwise append it. -/
def upsertQ (m : List (Nat × Nat)) (k t : Nat) : List (Nat × Nat) :=
  match m with
  | [] => [(k, t)]
  | (k', t') :: rest => if k' = k then (k, t) :: rest else (k', t') :: upsertQ rest k t

/-- `release_key`: a key in `retired` or `quarantined` is dropped, otherwise it
is re-enqueued at the back of `available`. -/
def Pool.releaseKey (p : Pool) (k : Nat) : Pool :=
  if k ∈ p.retired ∨ k ∈ p.qKeys then p
  else { p with available := p.available ++ [k] }

/-- `quarantine_key`: record the key in the `quarantined` map with its release
time (`time.time() + duration`). -/
def Pool.quarantineKey (p : Pool) (k endTime : Nat) : Pool :=
  { p with quarantined := upsertQ p.quarantined k endTime }

/-- `retire_key`: a no-op when already retired; otherwise delete the key from
`quarantined` if present, record it in `retired`, and decrement `total_keys`
clamped at zero (`max(0, total_keys - 1)`, which is `Nat` subtraction). -/
def Pool.retireKey (p : Pool) (k : Nat) : Pool :=
  if k ∈ p.retired then p
  else { p with quarantined := p.quarantined.filter (fun e => !(e.1 = k : Bool)),
                retired := p.retired ++ [k],
                totalKeys := p.totalKeys - 1 }

/-- The queue-draining part of `get_key`: entries are dequeued from the front;
a dequeued key found in `retired` is discarded and the dequeue is retried
(the recursive `return await self.get_key(provider)`).  The result is the
first live key, or `none` when the queue runs dry — in the code the caller
then waits out the 15 s deadline and `GetKeyTimeoutError` is raised. -/
def Pool.popKey (p : Pool) : Option Nat × Pool :=
  match p.available.dropWhile (fun k => p.retired.contains k) with
  | [] => (none, { p with available := [] })
  | k :: tl => (some k, { p with available := tl })

/-- One pass of the `_check_quarantine` sweeper over a single pool at time
`now`: every entry whose `end_time` has passed is removed from `quarantined`
and its key is enqueued back into `available`, in map order. -/
def Pool.sweep (p : Pool) (now : Nat) : Pool :=
  { p with
    quarantined := p.quarantined.filter (fun e => !(e.2 ≤ now : Bool)),
    available := p.available ++ (p.quarantined.filter (fun e => (e.2 ≤ now : Bool))).map Prod.fst }

/-! ### Pool state machine with checked-out keys

`MgrState` pairs a pool with the multiset of keys currently held by callers
(between `get_key` and the corresponding `release_key` / `quarantine_key` /
`retire_key`).  `Reachable` describes the states produced by well-formed
callers — the engine code only releases, quarantines or retires a key it has
acquired. -/

structure MgrState where
  pool : Pool
  heldOut : List Nat
deriving DecidableEq, Repr

/-- The pool right after `load_all_keys`: every loaded key is enqueued and
`total_keys` is the number of keys; nothing is held out. -/
def initState (keys : List Nat) : MgrState :=
  { pool := { available := keys, quarantined := [], retired := [], totalKeys := keys.length },
    heldOut := [] }

/-- A `get_key` call: on success the dequeued key becomes held by the caller;
on timeout nothing is held. -/
def acquireStep (s : MgrState) : MgrState :=
  match s.pool.popKey with
  | (none, p') => { s with pool := p' }
  | (some k, p') => { pool := p', heldOut := k :: s.heldOut }

/-- A caller releasing a key it holds. -/
def releaseStep (s : MgrState) (k : Nat) : MgrState :=
  { pool := s.pool.releaseKey k, heldOut := s.heldOut.erase k }

/-- A caller quarantining a key it holds. -/
def quarantineStep (s : MgrState) (k endTime : Nat) : MgrState :=
  { pool := s.pool.quarantineKey k endTime, heldOut := s.heldOut.erase k }

/-- A caller retiring a key it holds. -/
def retireStep (s : MgrState) (k : Nat) : MgrState :=
  { pool := s.pool.retireKey k, heldOut := s.heldOut.erase k }

/-- A sweeper pass at time `now`. -/
def sweepStep (s : MgrState) (now : Nat) : MgrState :=
  { s with pool := s.pool.sweep now }

/-- States reachable from a freshly loaded pool by well-formed callers:
lifecycle transitions are applied only to held keys. -/
inductive Reachable : MgrState → Prop
  | init (keys : List Nat) (h : keys.Nodup) : Reachable (initState keys)
  | acquire {s} : Reachable s → Reachable (acquireStep s)
  | release {s k} : Reachable s → k ∈ s.heldOut → Reachable (releaseStep s k)
  | quarantine {s k t} : Reachable s → k ∈ s.heldOut → Reachable (quarantineStep s k t)
  | retire {s k} : Reachable s → k ∈ s.heldOut → Reachable (retireStep s k)
  | sweep {s now} : Reachable s → Reachable (sweepStep s now)

/-- All key occurrences of a state, across the four places a key can live. -/
def allKeys (s : MgrState) : List Nat :=
  s.pool.available ++ s.pool.qKeys ++ s.pool.retired ++ s.heldOut

/-- The structural invariant of a reachable pool: no key occurs twice across
`available`, `quarantined`, `retired` and the held-out keys, and the live
locations (`available`, `quarantined`, held out) account exactly for
`total_keys`. -/
structure PoolInv (s : MgrState) : Prop where
  nodup : (allKeys s).Nodup
  count : s.pool.available.length + s.pool.quarantined.length + s.heldOut.length
            = s.pool.totalKeys

/-! ### Invariant preservation -/

lemma coeApp (l₁ l₂ : List Nat) : ((l₁ ++ l₂ : List Nat) : Multiset Nat) = ↑l₁ + ↑l₂ := rfl

lemma coeCons (a : Nat) (l : List Nat) : ((a :: l : List Nat) : Multiset Nat) = {a} + ↑l := by
  rw [show ((a :: l : List Nat) : Multiset Nat) = a ::ₘ ↑l from rfl, Multiset.singleton_add]

lemma coeSingle (a : Nat) : (([a] : List Nat) : Multiset Nat) = {a} := rfl

lemma nodup_of_coe_eq {l₁ l₂ : List Nat} (h : (l₁ : Multiset Nat) = l₂) (hn : l₂.Nodup) :
    l₁.Nodup :=
  (Multiset.coe_eq_coe.mp h).symm.nodup hn

lemma coe_of_mem_erase {l : List Nat} {k : Nat} (hk : k ∈ l) :
    (l : Multiset Nat) = {k} + ↑(l.erase k) := by
  rw [Multiset.coe_eq_coe.mpr (List.perm_cons_erase hk), coeCons]

lemma upsertQ_of_not_mem {m : List (Nat × Nat)} {k : Nat} (t : Nat)
    (hk : k ∉ m.map Prod.fst) : upsertQ m k t = m ++ [(k, t)] := by
  induction m with
  | nil => rfl
  | cons e rest ih =>
    obtain ⟨k', t'⟩ := e
    simp only [List.map_cons, List.mem_cons] at hk
    push_neg at hk
    unfold upsertQ
    rw [if_neg (Ne.symm hk.1), ih hk.2]
    rfl

lemma filterQ_of_not_mem {m : List (Nat × Nat)} {k : Nat}
    (hk : k ∉ m.map Prod.fst) : m.filter (fun e => !(e.1 = k : Bool)) = m := by
  apply List.filter_eq_self.mpr
  intro e he
  simp only [Bool.not_eq_true', decide_eq_false_iff_not]
  intro hek
  exact hk (List.mem_map.mpr ⟨e, he, hek⟩)

lemma allKeys_disj (s : MgrState) (hn : (allKeys s).Nodup) :
    (∀ k ∈ s.pool.available, k ∉ s.pool.retired) ∧
    (∀ k ∈ s.heldOut, k ∉ s.pool.retired ∧ k ∉ s.pool.qKeys ∧ k ∉ s.pool.available) := by
  simp only [allKeys, List.nodup_append, List.disjoint_append_right,
    List.disjoint_append_left] at hn
  obtain ⟨⟨⟨ha, hq, haq⟩, hr, ⟨haR, hqR⟩⟩, hh, ⟨haH, hqH⟩, hrH⟩ := hn
  exact ⟨fun k hka hkr => haR hka hkr,
    fun k hkh => ⟨fun hkr => hrH hkr hkh, fun hkq => hqH hkq hkh, fun hka => haH hka hkh⟩⟩

lemma reachable_inv {s : MgrState} (h : Reachable s) : PoolInv s := by
  induction h with
  | init keys hk =>
    constructor
    · simpa [allKeys, initState, Pool.qKeys] using hk
    · simp [initState]
  | acquire hr ih =>
    rename_i s
    have hdrop : s.pool.available.dropWhile (fun k => s.pool.retired.contains k)
        = s.pool.available := by
      rcases hav : s.pool.available with _ | ⟨k, tl⟩
      · rfl
      · have hmem : k ∉ s.pool.retired :=
          (allKeys_disj s ih.nodup).1 k (by rw [hav]; exact List.mem_cons_self _ _)
        simp [List.dropWhile, List.elem_eq_mem, hmem]
    rcases hav : s.pool.available with _ | ⟨k, tl⟩
    · have hpop : s.pool.popKey = (none, { s.pool with available := [] }) := by
        unfold Pool.popKey
        rw [hdrop, hav]
      have hstate : acquireStep s = s := by
        unfold acquireStep
        rw [hpop]
        have hpool : { s.pool with available := ([] : List Nat) } = s.pool := by
          rcases s with ⟨⟨av, q, r, t⟩, h⟩
          simp only at hav
          simp [hav]
        rw [hpool]
      rw [hstate]; exact ih
    · have hpop : s.pool.popKey = (some k, { s.pool with available := tl }) := by
        unfold Pool.popKey
        rw [hdrop, hav]
      have hstep : acquireStep s
          = { pool := { s.pool with available := tl }, heldOut := k :: s.heldOut } := by
        unfold acquireStep
        rw [hpop]
      constructor
      · refine nodup_of_coe_eq ?_ ih.nodup
        rw [hstep]
        simp only [allKeys, Pool.qKeys, hav, coeApp, coeCons]
        abel
      · have hc := ih.count
        rw [hav] at hc
        rw [hstep]
        simp only [List.length_cons] at *
        omega
  | release hr hk ih =>
    rename_i s k
    have hd := (allKeys_disj s ih.nodup).2 k hk
    have hrel : s.pool.releaseKey k = { s.pool with available := s.pool.available ++ [k] } := by
      unfold Pool.releaseKey
      rw [if_neg (by push_neg; exact ⟨hd.1, hd.2.1⟩)]
    have hlen : s.heldOut.length = (s.heldOut.erase k).length + 1 := by
      rw [List.length_erase_of_mem hk]
      have := List.length_pos_of_mem hk
      omega
    constructor
    · refine nodup_of_coe_eq ?_ ih.nodup
      simp only [releaseStep, hrel, allKeys, Pool.qKeys, coeApp, coeSingle,
        coe_of_mem_erase hk]
      abel
    · have hc := ih.count
      simp only [releaseStep, hrel, List.length_append, List.length_singleton]
      omega
  | quarantine hr hk ih =>
    rename_i s k t
    have hd := (allKeys_disj s ih.nodup).2 k hk
    have hq : s.pool.quarantineKey k t
        = { s.pool with quarantined := s.pool.quarantined ++ [(k, t)] } := by
      unfold Pool.quarantineKey
      rw [upsertQ_of_not_mem t hd.2.1]
    have hlen : s.heldOut.length = (s.heldOut.erase k).length + 1 := by
      rw [List.length_erase_of_mem hk]
      have := List.length_pos_of_mem hk
      omega
    constructor
    · refine nodup_of_coe_eq ?_ ih.nodup
      simp only [quarantineStep, hq, allKeys, Pool.qKeys, List.map_append, coeApp,
        List.map_cons, List.map_nil, coeSingle, coe_of_mem_erase hk]
      abel
    · have hc := ih.count
      simp only [quarantineStep, hq, List.length_append, List.length_singleton]
      omega
  | retire hr hk ih =>
    rename_i s k
    have hd := (allKeys_disj s ih.nodup).2 k hk
    have hret : s.pool.retireKey k
        = { s.pool with
              quarantined := s.pool.quarantined
              retired := s.pool.retired ++ [k]
              totalKeys := s.pool.totalKeys - 1 } := by
      unfold Pool.retireKey
      rw [if_neg hd.1, filterQ_of_not_mem hd.2.1]
    have hlen : s.heldOut.length = (s.heldOut.erase k).length + 1 := by
      rw [List.length_erase_of_mem hk]
      have := List.length_pos_of_mem hk
      omega
    have hheld : 1 ≤ s.heldOut.length := List.length_pos_of_mem hk
    constructor
    · refine nodup_of_coe_eq ?_ ih.nodup
      simp only [retireStep, hret, allKeys, Pool.qKeys, coeApp, coeSingle,
        coe_of_mem_erase hk]
      abel
    · have hc := ih.count
      simp only [retireStep, hret]
      omega
  | sweep hr ih =>
    rename_i s now
    have hsplit : (s.pool.quarantined.filter (fun e => (e.2 ≤ now : Bool))
        ++ s.pool.quarantined.filter (fun e => !(e.2 ≤ now : Bool))).Perm
          s.pool.quarantined :=
      List.filter_append_perm _ _
    have hqms : (s.pool.qKeys : Multiset Nat)
        = ↑((s.pool.quarantined.filter (fun e => (e.2 ≤ now : Bool))).map Prod.fst)
          + ↑((s.pool.quarantined.filter (fun e => !(e.2 ≤ now : Bool))).map Prod.fst) := by
      rw [← coeApp, ← List.map_append]
      exact (Multiset.coe_eq_coe.mpr ((hsplit.map Prod.fst).symm))
    have hcnt := @List.length_eq_length_filter_add (Nat × Nat) s.pool.quarantined
      (fun e => (e.2 ≤ now : Bool))
    constructor
    · refine nodup_of_coe_eq ?_ ih.nodup
      simp only [sweepStep, Pool.sweep, allKeys, Pool.qKeys, coeApp] at hqms ⊢
      rw [hqms]
      abel
    · have hc := ih.count
      simp only [sweepStep, Pool.sweep, List.length_append, List.length_map] at *
      omega

lemma retired_disj (s : MgrState) (hn : (allKeys s).Nodup) :
    ∀ k ∈ s.pool.retired, k ∉ s.pool.available ∧ k ∉ s.pool.qKeys := by
  simp only [allKeys, List.nodup_append, List.disjoint_append_right,
    List.disjoint_append_left] at hn
  obtain ⟨⟨⟨ha, hq, haq⟩, hr, ⟨haR, hqR⟩⟩, hh, ⟨haH, hqH⟩, hrH⟩ := hn
  exact fun k hkr => ⟨fun hka => haR hka hkr, fun hkq => hqR hkq hkr⟩

/-! ## Claim C2: the key-count equation

The claim states `|available| + |quarantined| + |retired| = total_keys +
held_out`.  In the code an acquired key leaves `available` while the right
side grows, so the equation fails at the very first `get_key`; the identity
the code actually maintains is
`|available| + |quarantined| + held_out = total_keys`. -/

/-- Claim C2, as stated, is false: after loading a single key and acquiring
it, the left side `|available| + |quarantined| + |retired|` is `0` while
`total_keys + held_out` is `2`. -/
theorem claim_C2_counterexample :
    Reachable (acquireStep (initState [0])) ∧
    ¬ ((acquireStep (initState [0])).pool.available.length
        + (acquireStep (initState [0])).pool.quarantined.length
        + (acquireStep (initState [0])).pool.retired.length
      = (acquireStep (initState [0])).pool.totalKeys
        + (acquireStep (initState [0])).heldOut.length) :=
  ⟨Reachable.acquire (Reachable.init [0] (by decide)), by decide⟩

/-- Claim C2 (amended): for every provider pool and at every point in any
well-formed sequence of acquire/release/quarantine/retire/sweep operations,
the count of available keys plus quarantined keys plus the keys currently
checked out by callers equals `total_keys` (retired keys are excluded on
both sides, since retirement also decrements `total_keys`). -/
theorem claim_C2_key_count (s : MgrState) (h : Reachable s) :
    s.pool.available.length + s.pool.quarantined.length + s.heldOut.length
      = s.pool.totalKeys :=
  (reachable_inv h).count

/-- Witness for C2 at a concrete reachable state: two keys loaded, one
acquired and then quarantined. -/
theorem claim_C2_key_count_witness :
    (quarantineStep (acquireStep (initState [0, 1])) 0 300).pool.available.length
      + (quarantineStep (acquireStep (initState [0, 1])) 0 300).pool.quarantined.length
      + (quarantineStep (acquireStep (initState [0, 1])) 0 300).heldOut.length
      = (quarantineStep (acquireStep (initState [0, 1])) 0 300).pool.totalKeys :=
  claim_C2_key_count _
    (Reachable.quarantine (Reachable.acquire (Reachable.init [0, 1] (by decide)))
      (by decide))

/-! ## Claim C3: retired keys never come back

The operations the claim ranges over: `get_key` (acquire), `release_key`,
and the `_check_quarantine` sweep. -/

inductive C3Op
  | acquire
  | release (k : Nat)
  | sweep (now : Nat)

def applyC3Op (s : MgrState) : C3Op → MgrState
  | .acquire => acquireStep s
  | .release k => releaseStep s k
  | .sweep t => sweepStep s t

def applyC3Ops (s : MgrState) (ops : List C3Op) : MgrState := ops.foldl applyC3Op s

lemma c3_step_preserves (s : MgrState) (k : Nat) (op : C3Op)
    (h : k ∈ s.pool.retired ∧ k ∉ s.pool.available ∧ k ∉ s.pool.qKeys) :
    k ∈ (applyC3Op s op).pool.retired ∧ k ∉ (applyC3Op s op).pool.available
      ∧ k ∉ (applyC3Op s op).pool.qKeys := by
  obtain ⟨hr, ha, hq⟩ := h
  cases op with
  | acquire =>
    have hgen : ∀ x ∈ s.pool.available.dropWhile (fun j => s.pool.retired.contains j),
        x ∈ s.pool.available := fun x hx => (List.dropWhile_suffix _).subset hx
    cases hdw : s.pool.available.dropWhile (fun j => s.pool.retired.contains j) with
    | nil =>
      simp only [applyC3Op, acquireStep, Pool.popKey, hdw]
      exact ⟨hr, by simp, hq⟩
    | cons x tl =>
      simp only [applyC3Op, acquireStep, Pool.popKey, hdw]
      refine ⟨hr, ?_, hq⟩
      intro hmem
      exact ha (hgen k (by rw [hdw]; exact List.mem_cons_of_mem _ hmem))
  | release k' =>
    by_cases hc : k' ∈ s.pool.retired ∨ k' ∈ s.pool.qKeys
    · simp only [applyC3Op, releaseStep, Pool.releaseKey, if_pos hc]
      exact ⟨hr, ha, hq⟩
    · simp only [applyC3Op, releaseStep, Pool.releaseKey, if_neg hc]
      refine ⟨hr, ?_, hq⟩
      intro hmem
      rcases List.mem_append.mp hmem with hmem | hmem
      · exact ha hmem
      · rw [List.mem_singleton] at hmem
        exact hc (Or.inl (hmem ▸ hr))
  | sweep t =>
    simp only [applyC3Op, sweepStep, Pool.sweep]
    refine ⟨hr, ?_, ?_⟩
    · intro hmem
      rcases List.mem_append.mp hmem with hmem | hmem
      · exact ha hmem
      · exact hq (by
          unfold Pool.qKeys
          obtain ⟨e, he, hek⟩ := List.mem_map.mp hmem
          exact List.mem_map.mpr ⟨e, List.mem_of_mem_filter he, hek⟩)
    · intro hmem
      exact hq (by
        unfold Pool.qKeys at hmem ⊢
        obtain ⟨e, he, hek⟩ := List.mem_map.mp hmem
        exact List.mem_map.mpr ⟨e, List.mem_of_mem_filter he, hek⟩)

lemma c3_ops_preserve (ops : List C3Op) : ∀ s : MgrState,
    (k ∈ s.pool.retired ∧ k ∉ s.pool.available ∧ k ∉ s.pool.qKeys) →
    k ∈ (applyC3Ops s ops).pool.retired ∧ k ∉ (applyC3Ops s ops).pool.available
      ∧ k ∉ (applyC3Ops s ops).pool.qKeys := by
  induction ops with
  | nil => exact fun s h => h
  | cons op rest ih =>
    intro s h
    exact ih (applyC3Op s op) (c3_step_preserves s k op h)

/-- Claim C3: in any reachable pool state, once a key is retired, no later
sequence of release, acquire, or quarantine-sweep operations makes it
re-appear in the available queue or in the quarantined map (and it stays
retired). -/
theorem claim_C3_retired_never_returns (s : MgrState) (k : Nat)
    (h : Reachable s) (hret : k ∈ s.pool.retired) (ops : List C3Op) :
    k ∉ (applyC3Ops s ops).pool.available ∧ k ∉ (applyC3Ops s ops).pool.qKeys
      ∧ k ∈ (applyC3Ops s ops).pool.retired := by
  have hd := retired_disj s (reachable_inv h).nodup k hret
  have := c3_ops_preserve ops s ⟨hret, hd.1, hd.2⟩
  exact ⟨this.2.1, this.2.2, this.1⟩

/-- Witness for C3: two keys, key 0 acquired and retired, then a release of
key 0, a fresh acquire, and a sweep are all unable to resurrect it. -/
theorem claim_C3_witness :
    0 ∉ (applyC3Ops (retireStep (acquireStep (initState [0, 1])) 0)
          [C3Op.release 0, C3Op.acquire, C3Op.sweep 1000]).pool.available
    ∧ 0 ∉ (applyC3Ops (retireStep (acquireStep (initState [0, 1])) 0)
          [C3Op.release 0, C3Op.acquire, C3Op.sweep 1000]).pool.qKeys
    ∧ 0 ∈ (applyC3Ops (retireStep (acquireStep (initState [0, 1])) 0)
          [C3Op.release 0, C3Op.acquire, C3Op.sweep 1000]).pool.retired :=
  claim_C3_retired_never_returns _ 0
    (Reachable.retire (Reachable.acquire (Reachable.init [0, 1] (by decide))) (by decide))
    (by decide) _

/-! ## Claim C10: `get_key` without a configured pool

`get_key` (key_manager.py) first short-circuits providers whose name starts
with `"local"`, then returns `None` when `self._pools.get(provider)` is
missing — without touching any queue — and only otherwise waits on the
`available` queue, raising `GetKeyTimeoutError` when the 15 s deadline
passes with the queue (net of discarded retired keys) still empty.  The
agent driver (`StreamingManager._execute_llm_step`, manager.py) turns a
falsy key into `ProviderUnavailableError("No keys for ...")` and breaks out
of the key loop for that profile. -/

inductive GetKeyResult
  | localKey            -- the "local-key-placeholder" constant
  | noKey               -- `return None`: no pool configured for the provider
  | gotKey (k : Nat)    -- a live key dequeued from the pool
  | timeout             -- `GetKeyTimeoutError` after the 15 s wait
deriving DecidableEq, Repr

/-- `ApiKeyManager.get_key` for a provider whose pool lookup gave `pool?`. -/
def managerGetKey (provider : String) (pool? : Option Pool) :
    GetKeyResult × Option Pool :=
  if provider.startsWith "local" then (.localKey, pool?)
  else
    match pool? with
    | none => (.noKey, none)
    | some p =>
      match p.popKey with
      | (some k, p') => (.gotKey k, some p')
      | (none, p') => (.timeout, some p')

inductive KeyLoopOutcome
  | proceed          -- a truthy key was obtained; the proxy call goes ahead
  | chainAdvance     -- `if not api_key`: ProviderUnavailableError recorded, break to next profile
  | raised           -- GetKeyTimeoutError propagates out of the driver step
deriving DecidableEq, Repr

/-- The key-acquisition head of the system-key path in
`StreamingManager._execute_llm_step`. -/
def llmStepKeyAcquisition (provider : String) (pool? : Option Pool) :
    KeyLoopOutcome × Option Pool :=
  match managerGetKey provider pool? with
  | (.localKey, s) => (.proceed, s)
  | (.gotKey _, s) => (.proceed, s)
  | (.noKey, s) => (.chainAdvance, s)
  | (.timeout, s) => (.raised, s)

/-- Claim C10: a provider with no configured pool and no `local` prefix gets
`None` back immediately (no timeout, pool table untouched); the timeout
error only arises when a configured pool's queue has run empty; and the
agent driver translates the `None` into the provider-unavailable outcome
that advances the chain. -/
theorem claim_C10_no_pool_get_key :
    (∀ provider : String, ¬ provider.startsWith "local" →
      managerGetKey provider none = (.noKey, none))
    ∧ (∀ (provider : String) (pool? r : Option Pool),
        managerGetKey provider pool? = (.timeout, r) →
        ∃ p : Pool, pool? = some p
          ∧ p.available.dropWhile (fun k => p.retired.contains k) = [])
    ∧ (∀ (provider : String) (pool? : Option Pool),
        (managerGetKey provider pool?).1 = .noKey →
        (llmStepKeyAcquisition provider pool?).1 = .chainAdvance) := by
  refine ⟨?_, ?_, ?_⟩
  · intro provider hp
    simp [managerGetKey, hp]
  · intro provider pool? r h
    unfold managerGetKey at h
    by_cases hp : provider.startsWith "local"
    · simp [hp] at h
    · rw [if_neg hp] at h
      rcases pool? with _ | p
      · simp at h
      · refine ⟨p, rfl, ?_⟩
        unfold Pool.popKey at h
        rcases hdw : p.available.dropWhile (fun k => p.retired.contains k) with _ | ⟨k, tl⟩
        · rfl
        · have hdw' : p.available.dropWhile (fun j => decide (j ∈ p.retired)) = k :: tl := by
            simpa using hdw
          simp [hdw'] at h
  · intro provider pool? h
    unfold llmStepKeyAcquisition
    rcases hm : managerGetKey provider pool? with ⟨res, s⟩
    rw [hm] at h
    cases res <;> simp_all

/-- Witness for C10: the provider `"groq"` with no pool configured. -/
theorem claim_C10_witness :
    managerGetKey "groq" none = (.noKey, none)
    ∧ (llmStepKeyAcquisition "groq" none).1 = .chainAdvance :=
  ⟨claim_C10_no_pool_get_key.1 "groq" (by decide),
   claim_C10_no_pool_get_key.2.2 "groq" none
     (by rw [claim_C10_no_pool_get_key.1 "groq" (by decide)])⟩

/-! ## Claim C5: unary handling of HTTP 400

The non-streaming branch of `_handle_request_execution` (services.py)
iterates `max_attempts = total_keys + 1` times.  Per attempt it classifies
the outcome: key timeout → record and continue; 401/403 → retire and
continue; 429 → quarantine and raise `ProviderUnavailableError`;
500/502/503/504 → quarantine and continue; any other HTTP status —
including 400 — falls into the final `else`, which releases the key, sleeps
and continues with the next attempt.  Exhaustion raises
`ProviderUnavailableError`.  No `BadRequest` is ever raised on this path
(`LLMBadRequestError` exists only in the agent driver's streaming step in
manager.py). -/

inductive AttemptOutcome
  | success
  | httpError (code : Nat)
  | genericError
deriving DecidableEq, Repr

inductive UnaryFinal
  | ok             -- the proxy result is returned
  | unavailable    -- ProviderUnavailableError is raised to route_request
  | badRequest     -- a BadRequest raised to the driver (never on this path)
deriving DecidableEq, Repr

/-- `time.time() + QUARANTINE_DURATION_SECONDS` for this model's clock. -/
def quarantineUntil : Nat := 300

/-- The unary retry loop of `_handle_request_execution`; `behave` gives the
provider's reply to each attempt, `fuel` the remaining attempts, and the
returned list records which keys were handed to the proxy call. -/
def unaryLoop (behave : Nat → AttemptOutcome) :
    Nat → Nat → Pool → List Nat → UnaryFinal × Pool × List Nat
  | 0, _, pool, tried => (.unavailable, pool, tried)
  | fuel + 1, idx, pool, tried =>
    match pool.popKey with
    | (none, p') => unaryLoop behave fuel (idx + 1) p' tried
    | (some k, p') =>
      match behave idx with
      | .success => (.ok, p'.releaseKey k, tried ++ [k])
      | .genericError => unaryLoop behave fuel (idx + 1) (p'.releaseKey k) (tried ++ [k])
      | .httpError code =>
        if code = 401 ∨ code = 403 then
          unaryLoop behave fuel (idx + 1) (p'.retireKey k) (tried ++ [k])
        else if code = 429 then
          (.unavailable, p'.quarantineKey k quarantineUntil, tried ++ [k])
        else if code = 500 ∨ code = 502 ∨ code = 503 ∨ code = 504 then
          unaryLoop behave fuel (idx + 1) (p'.quarantineKey k quarantineUntil) (tried ++ [k])
        else
          unaryLoop behave fuel (idx + 1) (p'.releaseKey k) (tried ++ [k])

/-- `execute_request_with_key_rotation` on a fresh attempt counter:
`max_attempts = total_keys + 1`. -/
def unaryRun (behave : Nat → AttemptOutcome) (pool : Pool) :
    UnaryFinal × Pool × List Nat :=
  unaryLoop behave (pool.totalKeys + 1) 0 pool []

lemma unaryLoop_ne_badRequest (behave : Nat → AttemptOutcome) (fuel : Nat) :
    ∀ (idx : Nat) (pool : Pool) (tried : List Nat),
      (unaryLoop behave fuel idx pool tried).1 ≠ .badRequest := by
  induction fuel with
  | zero => intro idx pool tried h; simp [unaryLoop] at h
  | succ n ih =>
    intro idx pool tried h
    simp only [unaryLoop] at h
    split at h
    · exact ih _ _ _ h
    · split at h
      · simp at h
      · exact ih _ _ _ h
      · split at h
        · exact ih _ _ _ h
        · split at h
          · simp at h
          · split at h
            · exact ih _ _ _ h
            · exact ih _ _ _ h

/-- Claim C5, as stated, is false: with two keys and a provider that answers
HTTP 400 on every attempt, the unary engine tries key 0, then key 1, then
key 0 again, and finishes by raising `ProviderUnavailableError` — three keys
handed out, and no `BadRequest` ever raised. -/
theorem claim_C5_counterexample :
    (unaryRun (fun _ => .httpError 400) ⟨[0, 1], [], [], 2⟩).1 = .unavailable
    ∧ ¬ (unaryRun (fun _ => .httpError 400) ⟨[0, 1], [], [], 2⟩).1 = .badRequest
    ∧ (unaryRun (fun _ => .httpError 400) ⟨[0, 1], [], [], 2⟩).2.2 = [0, 1, 0] := by
  refine ⟨by decide, by decide, by decide⟩

/-- Claim C5 (amended): when a provider answers a unary attempt with
HTTP 400, the engine releases the acquired key back to the available queue —
neither quarantining nor retiring it — and then continues the loop with
further keys of the same provider; the unary path never raises a
`BadRequest` (after exhausting `max_attempts` it raises
`ProviderUnavailable`).  Only the agent driver's streaming step
(`_execute_llm_step`) raises `LLMBadRequestError` on a 400. -/
theorem claim_C5_unary_400 :
    (∀ (behave : Nat → AttemptOutcome) (fuel idx : Nat) (pool p' : Pool)
        (tried : List Nat) (k : Nat),
        pool.popKey = (some k, p') → behave idx = .httpError 400 →
        unaryLoop behave (fuel + 1) idx pool tried
          = unaryLoop behave fuel (idx + 1) (p'.releaseKey k) (tried ++ [k])
        ∧ (k ∉ p'.retired → k ∉ p'.qKeys →
            (p'.releaseKey k).available = p'.available ++ [k]
            ∧ (p'.releaseKey k).quarantined = p'.quarantined
            ∧ (p'.releaseKey k).retired = p'.retired))
    ∧ (∀ (behave : Nat → AttemptOutcome) (fuel idx : Nat) (pool : Pool)
        (tried : List Nat), (unaryLoop behave fuel idx pool tried).1 ≠ .badRequest) := by
  constructor
  · intro behave fuel idx pool p' tried k hpop hb
    constructor
    · simp [unaryLoop, hpop, hb]
    · intro hr hq
      unfold Pool.releaseKey
      rw [if_neg (by push_neg; exact ⟨hr, hq⟩)]
      exact ⟨rfl, rfl, rfl⟩
  · exact fun behave fuel => unaryLoop_ne_badRequest behave fuel

/-- Witness for C5: a single-key pool answered with 400 steps to the next
attempt with the key released, and the full run raises no `BadRequest`. -/
theorem claim_C5_witness :
    (unaryLoop (fun _ => .httpError 400) 3 0 ⟨[5], [], [], 1⟩ []
        = unaryLoop (fun _ => .httpError 400) 2 1
            ((⟨[], [], [], 1⟩ : Pool).releaseKey 5) [5])
    ∧ (unaryLoop (fun _ => .httpError 400) 2 0 ⟨[5], [], [], 1⟩ []).1 ≠ .badRequest :=
  ⟨(claim_C5_unary_400.1 (fun _ => .httpError 400) 2 0 ⟨[5], [], [], 1⟩
      ⟨[], [], [], 1⟩ [] 5 (by decide) rfl).1,
   claim_C5_unary_400.2 (fun _ => .httpError 400) 2 0 ⟨[5], [], [], 1⟩ []⟩

/-! ## Claim C1: first-chunk peek and streaming fallback

`rotation_aware_stream_wrapper` (services.py) tries up to `max_attempts`
keys.  Per attempt the provider generator either raises
`GetKeyTimeoutError` during acquisition (caught, continue), yields some
chunks and ends cleanly (release, return), or raises.  When it raises
before any chunk was yielded (`stream_started` false): a 429 becomes
`ProviderUnavailableError` at once, any other error runs the key lifecycle
and the loop continues with the next key.  When it raises after at least
one chunk, the error is re-raised and kills the stream.  Exhaustion raises
`ProviderUnavailableError`.

`route_request` then pulls the first chunk of the wrapper's generator before
handing anything to Starlette: `ProviderUnavailableError` during that pull
(or any other startup error, which is wrapped into one) advances to the
next profile of the chain; a successful pull returns `chained_generator`,
which replays the first chunk and pipes the rest — after that point
`route_request` has returned and no fallback can occur. -/

inductive PErr
  | http (code : Nat)
  | generic
deriving DecidableEq, Repr

/-- One key attempt inside the wrapper: either `get_key` timed out, or the
provider generator yielded `chunks` and then ended cleanly (`none`) or
raised (`some e`). -/
inductive StreamAttempt
  | keyTimeout
  | run (chunks : List Nat) (err : Option PErr)
deriving DecidableEq, Repr

/-- What the wrapper's generator does, as observed by its consumer. -/
inductive WrapperResult
  | done (chunks : List Nat)                 -- all chunks, clean termination
  | failedMid (chunks : List Nat) (e : PErr) -- chunks, then the error is re-raised
  | unavailable                              -- ProviderUnavailableError, no chunk emitted
deriving DecidableEq, Repr

/-- `rotation_aware_stream_wrapper` over the finite list of key attempts
(`max_attempts` entries at most). -/
def wrapperRun : List StreamAttempt → WrapperResult
  | [] => .unavailable
  | .keyTimeout :: rest => wrapperRun rest
  | .run chunks err :: rest =>
    match err with
    | none => .done chunks
    | some e =>
      match chunks with
      | [] => if e = .http 429 then .unavailable else wrapperRun rest
      | _ => .failedMid chunks e

/-- What the client receives from the streaming branch of `route_request`. -/
inductive RouteStreamResult
  | stream (idx : Nat) (chunks : List Nat) (err : Option PErr)
      -- the generator of profile `idx` was handed to the HTTP layer; the
      -- client sees `chunks`, then a clean close (`none`) or an abrupt one
  | allUnavailable
      -- every profile failed before its first chunk: HTTP 503
deriving DecidableEq, Repr

/-- The chain loop of `route_request` for a streaming request: peek the
wrapper of each profile; `ProviderUnavailableError` (or any startup error,
wrapped) advances to the next profile; a first chunk commits to this
profile for good. -/
def routeStreamAux : List (List StreamAttempt) → Nat → RouteStreamResult
  | [], _ => .allUnavailable
  | profile :: rest, idx =>
    match wrapperRun profile with
    | .unavailable => routeStreamAux rest (idx + 1)
    | .done chunks => .stream idx chunks none
    | .failedMid chunks e => .stream idx chunks (some e)

def routeStream (chain : List (List StreamAttempt)) : RouteStreamResult :=
  routeStreamAux chain 0

lemma wrapperRun_failedMid_ne_nil (attempts : List StreamAttempt) (chunks : List Nat)
    (e : PErr) (h : wrapperRun attempts = .failedMid chunks e) : chunks ≠ [] := by
  induction attempts with
  | nil => simp [wrapperRun] at h
  | cons a rest ih =>
    cases a with
    | keyTimeout => exact ih (by simpa [wrapperRun] using h)
    | run cs err =>
      cases err with
      | none => simp [wrapperRun] at h
      | some e' =>
        cases cs with
        | nil =>
          by_cases h429 : e' = .http 429
          · simp [wrapperRun, h429] at h
          · exact ih (by simpa [wrapperRun, h429] using h)
        | cons c cs' =>
          simp [wrapperRun] at h
          simp [← h.1]

lemma routeStreamAux_spec (chain : List (List StreamAttempt)) :
    ∀ (start idx : Nat) (chunks : List Nat) (err : Option PErr),
      routeStreamAux chain start = .stream idx chunks err →
      ∃ pre p post, chain = pre ++ p :: post ∧ start + pre.length = idx
        ∧ (∀ q ∈ pre, wrapperRun q = .unavailable)
        ∧ ((err = none ∧ wrapperRun p = .done chunks)
            ∨ (∃ e, err = some e ∧ wrapperRun p = .failedMid chunks e ∧ chunks ≠ [])) := by
  induction chain with
  | nil => intro start idx chunks err h; simp [routeStreamAux] at h
  | cons profile rest ih =>
    intro start idx chunks err h
    rcases hw : wrapperRun profile with cs | ⟨cs, e⟩ | _
    · simp only [routeStreamAux, hw] at h
      obtain ⟨hidx, hcs, herr⟩ := by
        exact RouteStreamResult.stream.inj h
      exact ⟨[], profile, rest, by simp, by simpa using hidx, by simp,
        Or.inl ⟨herr.symm, by rw [hw, hcs]⟩⟩
    · simp only [routeStreamAux, hw] at h
      obtain ⟨hidx, hcs, herr⟩ := by
        exact RouteStreamResult.stream.inj h
      exact ⟨[], profile, rest, by simp, by simpa using hidx, by simp,
        Or.inr ⟨e, herr.symm, by rw [hw, hcs],
          hcs ▸ wrapperRun_failedMid_ne_nil profile cs e hw⟩⟩
    · simp only [routeStreamAux, hw] at h
      obtain ⟨pre, p, post, hchain, hlen, hpre, hres⟩ := ih (start + 1) idx chunks err h
      refine ⟨profile :: pre, p, post, by simp [hchain], by simp; omega, ?_, hres⟩
      intro q hq
      rcases List.mem_cons.mp hq with rfl | hq
      · exact hw
      · exact hpre q hq

lemma routeStreamAux_allUnavailable (chain : List (List StreamAttempt)) :
    ∀ start : Nat, routeStreamAux chain start = .allUnavailable →
      ∀ q ∈ chain, wrapperRun q = .unavailable := by
  induction chain with
  | nil => intro start h q hq; simp at hq
  | cons profile rest ih =>
    intro start h q hq
    rcases hw : wrapperRun profile with cs | ⟨cs, e⟩ | _
    · simp [routeStreamAux, hw] at h
    · simp [routeStreamAux, hw] at h
    · rcases List.mem_cons.mp hq with rfl | hq
      · exact hw
      · exact ih (start + 1) (by simpa [routeStreamAux, hw] using h) q hq

/-- Claim C1: for a streaming request, the result the HTTP layer sees comes
from exactly one profile — the first one whose wrapper did not fail before
its first chunk; every earlier profile ended in `ProviderUnavailableError`
and contributes nothing to the output; and when the stream ends in an error,
at least one chunk had been yielded and the error only terminates the stream
(the result carries no chunks from any later profile).  When every profile
is unavailable, the client gets the 503 outcome. -/
theorem claim_C1_stream_peek_fallback (chain : List (List StreamAttempt)) :
    (∀ (idx : Nat) (chunks : List Nat) (err : Option PErr),
      routeStream chain = .stream idx chunks err →
      ∃ pre p post, chain = pre ++ p :: post ∧ pre.length = idx
        ∧ (∀ q ∈ pre, wrapperRun q = .unavailable)
        ∧ ((err = none ∧ wrapperRun p = .done chunks)
            ∨ (∃ e, err = some e ∧ wrapperRun p = .failedMid chunks e ∧ chunks ≠ [])))
    ∧ (routeStream chain = .allUnavailable → ∀ q ∈ chain, wrapperRun q = .unavailable) := by
  constructor
  · intro idx chunks err h
    obtain ⟨pre, p, post, hchain, hlen, hpre, hres⟩ :=
      routeStreamAux_spec chain 0 idx chunks err h
    exact ⟨pre, p, post, hchain, by omega, hpre, hres⟩
  · exact fun h => routeStreamAux_allUnavailable chain 0 h

/-- A concrete two-profile chain: the first profile 429s before its first
chunk, the second times out on one key and then streams two chunks. -/
def c1Chain : List (List StreamAttempt) :=
  [[StreamAttempt.run [] (some (.http 429))],
   [StreamAttempt.keyTimeout, StreamAttempt.run [1, 2] none]]

/-- Witness for C1 on `c1Chain`: the client stream is profile 1's chunks,
profile 0 having been silently skipped. -/
theorem claim_C1_witness :
    ∃ pre p post, c1Chain = pre ++ p :: post ∧ pre.length = 1
      ∧ (∀ q ∈ pre, wrapperRun q = .unavailable)
      ∧ ((none = (none : Option PErr) ∧ wrapperRun p = .done [1, 2])
          ∨ (∃ e, (none : Option PErr) = some e
              ∧ wrapperRun p = .failedMid [1, 2] e ∧ ([1, 2] : List Nat) ≠ [])) :=
  (claim_C1_stream_peek_fallback c1Chain).1 1 [1, 2] none (by decide)

/-! ## Claims C6 and C7: the rotation-index backends

`ModelRotationManager.get_rotation_index` (rotation_manager.py) first
returns `0` outright when `pool_size <= 1`.  Otherwise, with a shared store
available it runs `val = INCR key` — `INCR` on a missing key stores and
returns 1 — and answers `val % pool_size`; the in-process fallback answers
the stored counter (`.get(alias, 0)`) and stores `(counter + 1) % pool_size`
back. -/

/-- One durable-backend call: the counter after, and the returned index. -/
def rotationIndexRedis (poolSize counter : Nat) : Nat × Nat :=
  if poolSize ≤ 1 then (0, counter)
  else ((counter + 1) % poolSize, counter + 1)

/-- One in-process-backend call. -/
def rotationIndexMemory (poolSize st : Nat) : Nat × Nat :=
  if poolSize ≤ 1 then (0, st)
  else (st, (st + 1) % poolSize)

/-- Shared-store counter before the `n`-th call (the key is initially
absent, which `INCR` treats as 0). -/
def redisCounterAfter (pSize : Nat) : Nat → Nat
  | 0 => 0
  | n + 1 => (rotationIndexRedis pSize (redisCounterAfter pSize n)).2

/-- The index returned by the `n`-th durable-backend call (0-based). -/
def redisIdx (pSize n : Nat) : Nat :=
  (rotationIndexRedis pSize (redisCounterAfter pSize n)).1

/-- In-process counter before the `n`-th call (`.get(alias_name, 0)`). -/
def memStateAfter (pSize : Nat) : Nat → Nat
  | 0 => 0
  | n + 1 => (rotationIndexMemory pSize (memStateAfter pSize n)).2

/-- The index returned by the `n`-th in-process call (0-based). -/
def memIdx (pSize n : Nat) : Nat :=
  (rotationIndexMemory pSize (memStateAfter pSize n)).1

lemma redisCounterAfter_eq (pSize : Nat) (h : 1 < pSize) :
    ∀ n, redisCounterAfter pSize n = n := by
  intro n
  induction n with
  | zero => rfl
  | succ m ih =>
    simp [redisCounterAfter, rotationIndexRedis, Nat.not_le.mpr h, ih]

lemma redisIdx_eq (pSize : Nat) (h : 1 < pSize) (n : Nat) :
    redisIdx pSize n = (n + 1) % pSize := by
  simp [redisIdx, rotationIndexRedis, Nat.not_le.mpr h, redisCounterAfter_eq pSize h]

lemma memStateAfter_eq (pSize : Nat) (h : 1 < pSize) :
    ∀ n, memStateAfter pSize n = n % pSize := by
  intro n
  induction n with
  | zero => simp [memStateAfter]
  | succ m ih =>
    simp only [memStateAfter, rotationIndexMemory, if_neg (Nat.not_le.mpr h), ih]
    conv_rhs => rw [Nat.add_mod m 1 pSize]
    rw [Nat.mod_eq_of_lt h]

lemma memIdx_eq (pSize : Nat) (h : 1 < pSize) (n : Nat) :
    memIdx pSize n = n % pSize := by
  simp [memIdx, rotationIndexMemory, Nat.not_le.mpr h, memStateAfter_eq pSize h]

/-- Claim C6, as stated, is false: for an alias with pool size 2, the very
first query answers index 1 from the durable backend (`INCR` of a fresh key
returns 1) but index 0 from the in-process backend (counter read before
increment). -/
theorem claim_C6_counterexample :
    redisIdx 2 0 = 1 ∧ memIdx 2 0 = 0 ∧ redisIdx 2 0 ≠ memIdx 2 0 := by
  refine ⟨by decide, by decide, by decide⟩

/-- Claim C6 (amended): both rotation-index backends step by one modulo the
pool size and never skip a slot, but their sequences are offset by one
rather than identical — the `n`-th durable index is `(n + 1) % M` while the
`n`-th in-process index is `n % M`, so the durable backend runs exactly one
call ahead of the in-process one. -/
theorem claim_C6_backend_offset (pSize n : Nat) (h : 1 < pSize) :
    redisIdx pSize n = (n + 1) % pSize
    ∧ memIdx pSize n = n % pSize
    ∧ redisIdx pSize n = memIdx pSize (n + 1) :=
  ⟨redisIdx_eq pSize h n, memIdx_eq pSize h n,
   by rw [redisIdx_eq pSize h n, memIdx_eq pSize h (n + 1)]⟩

/-- Witness for C6 at pool size 3, call 4. -/
theorem claim_C6_witness :
    redisIdx 3 4 = (4 + 1) % 3 ∧ memIdx 3 4 = 4 % 3
      ∧ redisIdx 3 4 = memIdx 3 (4 + 1) :=
  claim_C6_backend_offset 3 4 (by decide)

/-! ### Counting lemmas for claim C7 -/

/-- How many of the first `N` queries (0-based) answer index `j`. -/
def idxCount (seq : Nat → Nat) (N j : Nat) : Nat :=
  (List.range N).countP (fun n => seq n == j)

lemma countP_mod_eq (M r : Nat) (hM : 0 < M) (hr : r < M) :
    ∀ N, (List.range N).countP (fun n => n % M == r)
      = N / M + (if r < N % M then 1 else 0) := by
  intro N
  induction N with
  | zero => simp
  | succ N ih =>
    rw [List.range_succ, List.countP_append, ih]
    have hN : M * (N / M) + N % M = N := Nat.div_add_mod N M
    have hsM : N % M < M := Nat.mod_lt _ hM
    have hsingle : (List.countP (fun n => n % M == r) [N]) = if N % M = r then 1 else 0 := by
      simp [List.countP_cons, beq_iff_eq]
    rw [hsingle]
    by_cases hcase : N % M + 1 = M
    · have h1 : N + 1 = M * (N / M + 1) := by rw [Nat.mul_succ]; omega
      have hNmod : (N + 1) % M = 0 := by rw [h1]; exact Nat.mul_mod_right _ _
      have hNdiv : (N + 1) / M = N / M + 1 := by
        rw [h1]; exact Nat.mul_div_cancel_left _ hM
      rw [hNmod, hNdiv]
      split_ifs <;> omega
    · have hlt : N % M + 1 < M := by omega
      have hcomm : M * (N / M) = N / M * M := Nat.mul_comm _ _
      have h2 : N + 1 = (N % M + 1) + N / M * M := by omega
      have hNmod : (N + 1) % M = N % M + 1 := by
        rw [h2, Nat.add_mul_mod_self_right]
        exact Nat.mod_eq_of_lt hlt
      have hNdiv : (N + 1) / M = N / M := by
        rw [h2, Nat.add_mul_div_right _ _ hM, Nat.div_eq_of_lt hlt]
        omega
      rw [hNmod, hNdiv]
      split_ifs <;> omega

lemma shift_mod_iff (M c n j : Nat) (hj : j < M) (hc : c ≤ M) :
    (n + c) % M = j ↔ n % M = (j + (M - c)) % M := by
  constructor
  · intro h
    calc n % M = (n + M) % M := (Nat.add_mod_right n M).symm
      _ = ((n + c) + (M - c)) % M := by rw [show n + c + (M - c) = n + M from by omega]
      _ = ((n + c) % M + (M - c)) % M := (Nat.mod_add_mod _ _ _).symm
      _ = (j + (M - c)) % M := by rw [h]
  · intro h
    calc (n + c) % M = (n % M + c) % M := (Nat.mod_add_mod _ _ _).symm
      _ = ((j + (M - c)) % M + c) % M := by rw [h]
      _ = ((j + (M - c)) + c) % M := Nat.mod_add_mod _ _ _
      _ = (j + M) % M := by rw [show j + (M - c) + c = j + M from by omega]
      _ = j % M := Nat.add_mod_right j M
      _ = j := Nat.mod_eq_of_lt hj

lemma idxCount_shift (M c N j : Nat) (hM : 0 < M) (hj : j < M) (hc : c ≤ M) :
    (List.range N).countP (fun n => (n + c) % M == j)
      = N / M + (if (j + (M - c)) % M < N % M then 1 else 0) := by
  have hr : (j + (M - c)) % M < M := Nat.mod_lt _ hM
  rw [← countP_mod_eq M _ hM hr N]
  apply List.countP_congr
  intro n hn
  simp only [beq_iff_eq]
  exact shift_mod_iff M c n j hj hc

lemma ceilDiv_of_mod_ne (M N : Nat) (hM : 0 < M) (hne : N % M ≠ 0) :
    (N + M - 1) / M = N / M + 1 := by
  have hN : M * (N / M) + N % M = N := Nat.div_add_mod N M
  have hcomm : M * (N / M) = N / M * M := Nat.mul_comm _ _
  have hsM : N % M < M := Nat.mod_lt _ hM
  have heq : N + M - 1 = (N % M - 1) + (N / M + 1) * M := by
    have : (N / M + 1) * M = N / M * M + M := by ring
    omega
  rw [heq, Nat.add_mul_div_right _ _ hM, Nat.div_eq_of_lt (by omega)]
  omega

/-- Claim C7: for a pool of size `M > 1` and `N > M` sequential non-
interleaved queries against one backend (either the durable one or the
in-process one), every index `j < M` is returned at least `⌊N/M⌋` and at
most `⌈N/M⌉ = (N + M - 1)/M` times. -/
theorem claim_C7_fair_rotation (M N j : Nat) (hM : 1 < M) (hN : M < N) (hj : j < M) :
    (N / M ≤ idxCount (redisIdx M) N j ∧ idxCount (redisIdx M) N j ≤ (N + M - 1) / M)
    ∧ (N / M ≤ idxCount (memIdx M) N j ∧ idxCount (memIdx M) N j ≤ (N + M - 1) / M) := by
  have hM0 : 0 < M := by omega
  have hceil : N / M ≤ (N + M - 1) / M := Nat.div_le_div_right (by omega)
  have hredis : idxCount (redisIdx M) N j
      = N / M + (if (j + (M - 1)) % M < N % M then 1 else 0) := by
    unfold idxCount
    rw [← idxCount_shift M 1 N j hM0 hj (by omega)]
    apply List.countP_congr
    intro n hn
    rw [redisIdx_eq M hM n]
  have hmem : idxCount (memIdx M) N j
      = N / M + (if j < N % M then 1 else 0) := by
    unfold idxCount
    rw [← countP_mod_eq M j hM0 hj N]
    apply List.countP_congr
    intro n hn
    rw [memIdx_eq M hM n]
  constructor
  · rw [hredis]
    refine ⟨by omega, ?_⟩
    by_cases hcond : (j + (M - 1)) % M < N % M
    · rw [ceilDiv_of_mod_ne M N hM0 (by omega)]
      simp [hcond]
    · simp only [hcond, if_false]
      omega
  · rw [hmem]
    refine ⟨by omega, ?_⟩
    by_cases hcond : j < N % M
    · rw [ceilDiv_of_mod_ne M N hM0 (by omega)]
      simp [hcond]
    · simp only [hcond, if_false]
      omega

/-- Witness for C7 at `M = 3`, `N = 7`, `j = 1`. -/
theorem claim_C7_witness :
    (7 / 3 ≤ idxCount (redisIdx 3) 7 1 ∧ idxCount (redisIdx 3) 7 1 ≤ (7 + 3 - 1) / 3)
    ∧ (7 / 3 ≤ idxCount (memIdx 3) 7 1 ∧ idxCount (memIdx 3) 7 1 ≤ (7 + 3 - 1) / 3) :=
  claim_C7_fair_rotation 3 7 1 (by decide) (by decide) (by decide)

/-! ## Claim C4: the effective chain for a load-balanced alias

Two different constructions exist in the code.  `route_request`
(services.py) applies the "pick one, fail to fallback" strategy: with
`main_length = M ≤ len(chain)` and rotation index `i < M` it serves the
request with the chain `[main[i]] ++ fallbacks`.  The agent dispatch path
(`handle_unified_chat_completions`, chat.py) instead rotates the whole main
pool: `deque(chain[:M]).rotate(-i)` followed by the fallbacks, so every
main-pool entry stays in the chain handed to `StreamingManager`, which
iterates it in full. -/

/-- `collections.deque.rotate(-n)`: rotate left by `n` (mod length). -/
def rotateLeft (l : List String) (n : Nat) : List String :=
  if l.length = 0 then l else l.drop (n % l.length) ++ l.take (n % l.length)

/-- The chain built by `route_request` under `agent_metadata`:
`main_length` metadata `meta`, rotation index `i`. -/
def routeRequestEffectiveChain (chain : List String) (meta : Option Nat) (i : Nat) :
    List String :=
  match meta with
  | none => chain
  | some mainLen =>
    if mainLen ≤ chain.length then
      match (chain.take mainLen).get? i with
      | some sel => sel :: chain.drop mainLen
      | none => chain
    else chain

/-- The chain built by the agent path of `handle_unified_chat_completions`
for `main_length = mainLen`. -/
def agentPriorityChain (chain : List String) (mainLen i : Nat) : List String :=
  if 1 < mainLen then rotateLeft (chain.take mainLen) i ++ chain.drop mainLen
  else chain

/-- Claim C4, as stated, is false for agent dispatches: with chain
`[A, B, C, D]`, `main_length = 3` and rotation index `1`, the chain handed
to the agent driver is `[B, C, A, D]`, not the claimed `[B, D]` — the other
main-pool entries `C` and `A` remain and are tried on failure. -/
theorem claim_C4_counterexample :
    agentPriorityChain ["A", "B", "C", "D"] 3 1
        ≠ ["B"] ++ (["A", "B", "C", "D"].drop 3)
    ∧ agentPriorityChain ["A", "B", "C", "D"] 3 1 = ["B", "C", "A", "D"] := by
  refine ⟨by decide, by decide⟩

/-- Claim C4 (amended): for a standard (non-agent) request routed through
`route_request` with `main_length = M ≤ len(chain)` (`M > 1`) and rotation
index `i < M`, the iterated chain is exactly `[main[i]] ++ fallbacks[M..)`;
an agent request instead receives the whole main pool rotated left by `i`
followed by the fallbacks, so every main-pool entry remains in its chain. -/
theorem claim_C4_effective_chain :
    (∀ (chain : List String) (mainLen i : Nat) (sel : String),
      1 < mainLen → mainLen ≤ chain.length → i < mainLen →
      (chain.take mainLen).get? i = some sel →
      routeRequestEffectiveChain chain (some mainLen) i = sel :: chain.drop mainLen)
    ∧ (∀ (chain : List String) (mainLen i : Nat),
      1 < mainLen → i < mainLen → mainLen ≤ chain.length →
      agentPriorityChain chain mainLen i
          = (chain.take mainLen).drop i ++ (chain.take mainLen).take i
              ++ chain.drop mainLen
      ∧ ∀ x ∈ chain.take mainLen, x ∈ agentPriorityChain chain mainLen i) := by
  constructor
  · intro chain mainLen i sel h1 h2 h3 hget
    simp only [List.get?_eq_getElem?] at hget
    simp [routeRequestEffectiveChain, h2, hget]
  · intro chain mainLen i h1 h2 h3
    have hlen : (chain.take mainLen).length = mainLen := by
      rw [List.length_take]
      omega
    have hmod : i % mainLen = i := Nat.mod_eq_of_lt h2
    constructor
    · simp only [agentPriorityChain, if_pos h1, rotateLeft, hlen, hmod]
      rw [if_neg (by omega), List.append_assoc]
    · intro x hx
      simp only [agentPriorityChain, if_pos h1, rotateLeft, hlen, hmod]
      rw [if_neg (by omega)]
      simp only [List.mem_append]
      rcases List.mem_append.mp ((List.take_append_drop i (chain.take mainLen)) ▸ hx) with h | h
      · exact Or.inl (Or.inr h)
      · exact Or.inl (Or.inl h)

/-- Witness for C4: chain `[A, B, C, D]`, `M = 3`, `i = 1`; the standard
path serves `[B, D]` while the agent path keeps all of `B, C, A` ahead of
`D`. -/
theorem claim_C4_witness :
    routeRequestEffectiveChain ["A", "B", "C", "D"] (some 3) 1
        = "B" :: (["A", "B", "C", "D"].drop 3)
    ∧ "C" ∈ agentPriorityChain ["A", "B", "C", "D"] 3 1 :=
  ⟨claim_C4_effective_chain.1 ["A", "B", "C", "D"] 3 1 "B"
      (by decide) (by decide) (by decide) (by decide),
   (claim_C4_effective_chain.2 ["A", "B", "C", "D"] 3 1
      (by decide) (by decide) (by decide)).2 "C" (by decide)⟩

/-! ## Claim C9: cache admission re-validation on read

`is_content_safe_to_cache` (cache_validator.py) rejects empty or
whitespace-only content, content containing a known error signature, and
JSON objects carrying an `error` field or a `status_code >= 400`.  The
strings the validator strips and scans are modelled as `List Char`;
`json.loads` and the pydantic response validation are external library
calls and enter the model as function parameters.  A `status_code` value
that is not a number makes the `>=` comparison raise (`TypeError`), which
the `Except` result captures; `route_request` wraps the whole cache read in
`try/except`, so any such exception also falls through to the providers. -/

/-- Python `str.strip()` with the default whitespace characters. -/
def pyStrip (s : List Char) : List Char :=
  (((s.dropWhile Char.isWhitespace).reverse).dropWhile Char.isWhitespace).reverse

/-- Python `needle in haystack` on strings: substring containment. -/
def pyInStr (needle hay : List Char) : Bool :=
  needle.isPrefixOf hay ||
    match hay with
    | [] => false
    | _ :: t => pyInStr needle t

/-- The `error_signatures` list of `is_content_safe_to_cache`. -/
def errorSignatures : List (List Char) :=
  ["httpx.ConnectError",
   "httpx.ConnectTimeout",
   "Traceback (most recent call last)",
   "Internal Server Error",
   "Rate limit reached",
   "Quota exceeded",
   "Parsing failed. The model generated output that could not be parsed"].map
    String.toList

/-- A JSON value as far as the validator inspects it. -/
inductive PyJsonVal
  | int (n : Int)       -- a JSON number (modelled as an integer)
  | nonNum (tag : Nat)  -- any non-numeric value: `>=` against it raises
deriving DecidableEq, Repr

/-- The outcome of `json.loads` on the stripped content. -/
inductive JsonOutcome
  | obj (entries : List (List Char × PyJsonVal))  -- a dict, in key order
  | nonObj                                        -- parsed, not a dict
  | parseError                                    -- JSONDecodeError
deriving DecidableEq, Repr

deriving instance DecidableEq for Except

/-- `is_content_safe_to_cache`, with `jsonLoads` standing for `json.loads`.
`Except.error` models an exception escaping the function. -/
def is_content_safe_to_cache (jsonLoads : List Char → JsonOutcome)
    (content : List Char) : Except Unit Bool :=
  if content.isEmpty || (pyStrip content).isEmpty then .ok false
  else if errorSignatures.any (fun sig => pyInStr sig content) then .ok false
  else
    let stripped := pyStrip content
    if stripped.head? == some '\x7b' && stripped.getLast? == some '\x7d' then
      match jsonLoads stripped with
      | .obj entries =>
        if entries.any (fun e => e.1 == "error".toList) then .ok false
        else
          match entries.lookup "status_code".toList with
          | some (.int n) => if 400 ≤ n then .ok false else .ok true
          | some (.nonNum _) => .error ()
          | none => .ok true
      | _ => .ok true
    else .ok true

inductive CacheReadOutcome
  | serveCached         -- the cached ChatCompletionResponse is returned
  | proceedToProviders  -- fall through to the provider chain loop
deriving DecidableEq, Repr

/-- The cache-read section of `route_request` (services.py): the cached
value must be truthy, pass `is_content_safe_to_cache` again, and parse as a
`ChatCompletionResponse` (`validateResponse`); every other case — including
an exception, caught by the surrounding `try/except` — proceeds to the
providers. -/
def cacheReadStep (jsonLoads : List Char → JsonOutcome)
    (validateResponse : List Char → Bool) (cached : Option (List Char)) :
    CacheReadOutcome :=
  match cached with
  | none => .proceedToProviders
  | some v =>
    if v.isEmpty then .proceedToProviders
    else
      match is_content_safe_to_cache jsonLoads v with
      | .ok true => if validateResponse v then .serveCached else .proceedToProviders
      | .ok false => .proceedToProviders
      | .error _ => .proceedToProviders

/-- Claim C9: the cache never serves an unsafe value — a served response
is a stored value that passed the admission rules at read time, and any
stored value failing them (or raising) is silently ignored, the request
proceeding to the providers. -/
theorem claim_C9_cache_read_safe (jsonLoads : List Char → JsonOutcome)
    (validateResponse : List Char → Bool) (cached : Option (List Char)) :
    (cacheReadStep jsonLoads validateResponse cached = .serveCached →
      ∃ v, cached = some v ∧ is_content_safe_to_cache jsonLoads v = .ok true)
    ∧ (∀ v, cached = some v → is_content_safe_to_cache jsonLoads v ≠ .ok true →
        cacheReadStep jsonLoads validateResponse cached = .proceedToProviders) := by
  constructor
  · intro h
    match hc : cached with
    | none => simp [cacheReadStep, hc] at h
    | some v =>
      refine ⟨v, rfl, ?_⟩
      by_cases hemp : v.isEmpty
      · simp [cacheReadStep, hemp] at h
      · rcases hsafe : is_content_safe_to_cache jsonLoads v with e | b
        · simp [cacheReadStep, hemp, hsafe] at h
        · cases b
          · simp [cacheReadStep, hemp, hsafe] at h
          · rfl
  · intro v hv hunsafe
    subst hv
    by_cases hemp : v.isEmpty
    · simp [cacheReadStep, hemp]
    · rcases hsafe : is_content_safe_to_cache jsonLoads v with e | b
      · simp [cacheReadStep, hemp, hsafe]
      · cases b
        · simp [cacheReadStep, hemp, hsafe]
        · exact absurd hsafe hunsafe

/-- Witness for C9: a cached value matching the `"Rate limit reached"`
error signature is ignored and the request goes to the providers. -/
theorem claim_C9_witness :
    cacheReadStep (fun _ => .parseError) (fun _ => true)
        (some "Rate limit reached".toList) = .proceedToProviders :=
  (claim_C9_cache_read_safe (fun _ => .parseError) (fun _ => true)
      (some "Rate limit reached".toList)).2
    "Rate limit reached".toList rfl (by decide)

/-! ## Claim C8: idempotence of message normalization

`MessageNormalizer` (normalization.py).  Message content is `None`, a
string, a list of parts, or some other value; parts carry a `"type"` tag and
text parts a `"text"` string.  Roles are compared only for equality.  Both
normalizers first drop messages whose content is missing/`None` or a
whitespace-only string, then merge consecutive same-role messages; the
Gemini variant additionally injects the dummy user message `"..."` when the
first non-system message is an assistant one. -/

inductive ContentPart
  | text (s : List Char)      -- {"type": "text", "text": s}
  | nonText (tag : Nat)       -- any part whose "type" is not "text"
deriving DecidableEq, Repr

inductive Content
  | str (s : List Char)
  | parts (l : List ContentPart)
  | otherVal (tag : Nat)      -- non-string, non-list content (e.g. a number)
deriving DecidableEq, Repr

structure Message where
  role : Option String        -- m.get("role")
  content : Option Content    -- m.get("content"); none for missing or None
deriving DecidableEq, Repr

/-- `_to_content_list`: strings become a single text part, lists stay, and
anything else becomes the empty list. -/
def toContentList : Option Content → List ContentPart
  | some (.str s) => [.text s]
  | some (.parts l) => l
  | _ => []

/-- `_merge_contents`: two strings join with a newline; otherwise both sides
become part lists and a text/text boundary is coalesced. -/
def mergeContents (a b : Option Content) : Content :=
  match a, b with
  | some (.str x), some (.str y) => .str (x ++ '\n' :: y)
  | _, _ =>
    match (toContentList a).getLast?, toContentList b with
    | some (.text ta), .text tb :: rest =>
        .parts ((toContentList a).dropLast ++ .text (ta ++ '\n' :: tb) :: rest)
    | _, _ => .parts (toContentList a ++ toContentList b)

/-- The cleaning filter of both normalizers:
`m.get("content") is not None and (not isinstance(content, str) or content.strip())`. -/
def contentTruthy : Option Content → Bool
  | none => false
  | some (.str s) => !(pyStrip s).isEmpty
  | some _ => true

def keepMsg (m : Message) : Bool := contentTruthy m.content

/-- The merge loop of both normalizers, carrying the current last message
(`merged_messages[-1]`, mutated in place in the Python). -/
def mergeRun : Message → List Message → List Message
  | cur, [] => [cur]
  | cur, m :: rest =>
    if m.role == cur.role then
      mergeRun { cur with content := some (mergeContents cur.content m.content) } rest
    else cur :: mergeRun m rest

def mergeConsecutive : List Message → List Message
  | [] => []
  | m :: rest => mergeRun m rest

/-- `normalize_for_openai`: clean, then merge consecutive same-role
messages. -/
def normalize_for_openai (messages : List Message) : List Message :=
  let cleaned := messages.filter keepMsg
  if cleaned.isEmpty then [] else mergeConsecutive cleaned

/-- The injected `{"role": "user", "content": "..."}`. -/
def dummyUser : Message := { role := some "user", content := some (.str "...".toList) }

/-- The alternation-fixing loop of `normalize_for_gemini`: system messages
pass through; the first non-system message gets a dummy user prepended when
it is an assistant one. -/
def fixAlternation : Bool → List Message → List Message
  | _, [] => []
  | started, m :: rest =>
    if m.role == some "system" then m :: fixAlternation started rest
    else if !started && m.role == some "assistant" then
      dummyUser :: m :: fixAlternation true rest
    else m :: fixAlternation true rest

/-- `normalize_for_gemini`: clean, merge, then fix the start of the
conversation. -/
def normalize_for_gemini (messages : List Message) : List Message :=
  let cleaned := messages.filter keepMsg
  if cleaned.isEmpty then [] else fixAlternation false (mergeConsecutive cleaned)

example : normalize_for_openai
      [{ role := some "user", content := some (.str "Hi".toList) },
       { role := some "user", content := some (.str "There".toList) },
       { role := some "assistant", content := some (.str "Hello".toList) }]
    = [{ role := some "user", content := some (.str "Hi\nThere".toList) },
       { role := some "assistant", content := some (.str "Hello".toList) }] := by
  decide

example : normalize_for_openai
      [{ role := some "user", content := some (.str "Valid".toList) },
       { role := some "assistant", content := some (.str "".toList) },
       { role := some "assistant", content := some (.str "   ".toList) },
       { role := some "user", content := none },
       { role := some "user", content := some (.str "Also Valid".toList) }]
    = [{ role := some "user", content := some (.str "Valid\nAlso Valid".toList) }] := by
  decide

example : normalize_for_gemini
      [{ role := some "system", content := some (.str "Sys".toList) },
       { role := some "assistant", content := some (.str "Prefill".toList) }]
    = [{ role := some "system", content := some (.str "Sys".toList) },
       dummyUser,
       { role := some "assistant", content := some (.str "Prefill".toList) }] := by
  decide

lemma pyStrip_eq_nil_iff (s : List Char) :
    pyStrip s = [] ↔ ∀ c ∈ s, c.isWhitespace := by
  unfold pyStrip
  rw [List.reverse_eq_nil_iff, List.dropWhile_eq_nil_iff]
  constructor
  · intro h c hc
    rw [← List.takeWhile_append_dropWhile Char.isWhitespace s] at hc
    rcases List.mem_append.mp hc with hc | hc
    · exact List.mem_takeWhile_imp hc
    · exact h c (List.mem_reverse.mpr hc)
  · intro h x hx
    exact h x ((List.dropWhile_suffix _).subset (List.mem_reverse.mp hx))

lemma pyStrip_append_ne (x y : List Char) (hx : ¬ pyStrip x = []) :
    ¬ pyStrip (x ++ '\n' :: y) = [] := by
  intro h
  rw [pyStrip_eq_nil_iff] at h hx
  exact hx (fun c hc => h c (List.mem_append.mpr (Or.inl hc)))

lemma mergeContents_cases (a b : Option Content) :
    (∃ x y, a = some (.str x) ∧ b = some (.str y)
        ∧ mergeContents a b = .str (x ++ '\n' :: y))
    ∨ ∃ l, mergeContents a b = .parts l := by
  unfold mergeContents
  split
  · rename_i x y
    exact Or.inl ⟨x, y, rfl, rfl, rfl⟩
  · right
    split
    · exact ⟨_, rfl⟩
    · exact ⟨_, rfl⟩

lemma contentTruthy_str_iff (s : List Char) :
    contentTruthy (some (.str s)) = true ↔ pyStrip s ≠ [] := by
  simp only [contentTruthy, Bool.not_eq_true', List.isEmpty_eq_false]

lemma contentTruthy_merge {a b : Option Content}
    (ha : contentTruthy a = true) (hb : contentTruthy b = true) :
    contentTruthy (some (mergeContents a b)) = true := by
  rcases mergeContents_cases a b with ⟨x, y, hax, hby, hm⟩ | ⟨l, hm⟩
  · subst hax
    subst hby
    rw [hm, contentTruthy_str_iff]
    exact pyStrip_append_ne x y ((contentTruthy_str_iff x).mp ha)
  · rw [hm]
    rfl

lemma mergeRun_keep : ∀ (l : List Message) (cur : Message),
    keepMsg cur = true → (∀ m ∈ l, keepMsg m = true) →
    ∀ m' ∈ mergeRun cur l, keepMsg m' = true := by
  intro l
  induction l with
  | nil =>
    intro cur hcur hl m' hm'
    simp only [mergeRun, List.mem_singleton] at hm'
    subst hm'
    exact hcur
  | cons m rest ih =>
    intro cur hcur hl m' hm'
    simp only [mergeRun] at hm'
    by_cases hrole : (m.role == cur.role) = true
    · rw [if_pos hrole] at hm'
      refine ih { cur with content := some (mergeContents cur.content m.content) } ?_
        (fun y hy => hl y (List.mem_cons_of_mem _ hy)) m' hm'
      show contentTruthy (some (mergeContents cur.content m.content)) = true
      exact contentTruthy_merge hcur (hl m (List.mem_cons_self _ _))
    · rw [if_neg hrole] at hm'
      rcases List.mem_cons.mp hm' with rfl | hm'
      · exact hcur
      · exact ih m (hl m (List.mem_cons_self _ _))
          (fun y hy => hl y (List.mem_cons_of_mem _ hy)) m' hm'

lemma mergeRun_head : ∀ (l : List Message) (cur : Message),
    ∃ c rest', mergeRun cur l = { role := cur.role, content := c } :: rest' := by
  intro l
  induction l with
  | nil => intro cur; exact ⟨cur.content, [], rfl⟩
  | cons m rest ih =>
    intro cur
    simp only [mergeRun]
    by_cases hrole : (m.role == cur.role) = true
    · rw [if_pos hrole]
      exact ih _
    · rw [if_neg hrole]
      exact ⟨cur.content, _, rfl⟩

/-- No two adjacent messages share a role. -/
def headNe (a : Message) : List Message → Prop
  | [] => True
  | b :: _ => a.role ≠ b.role

def noAdjSameRole : List Message → Prop
  | [] => True
  | a :: l => headNe a l ∧ noAdjSameRole l

lemma mergeRun_noAdj : ∀ (l : List Message) (cur : Message),
    noAdjSameRole (mergeRun cur l) := by
  intro l
  induction l with
  | nil => intro cur; exact ⟨trivial, trivial⟩
  | cons m rest ih =>
    intro cur
    simp only [mergeRun]
    by_cases hrole : (m.role == cur.role) = true
    · rw [if_pos hrole]
      exact ih _
    · rw [if_neg hrole]
      obtain ⟨c, rest', hh⟩ := mergeRun_head rest m
      refine ⟨?_, ih m⟩
      rw [hh]
      show cur.role ≠ m.role
      intro hcontra
      exact hrole (by rw [hcontra]; exact beq_self_eq_true _)

lemma mergeRun_id : ∀ (l : List Message) (cur : Message),
    noAdjSameRole (cur :: l) → mergeRun cur l = cur :: l := by
  intro l
  induction l with
  | nil => intro cur _; rfl
  | cons m rest ih =>
    intro cur h
    obtain ⟨hne, hrest⟩ := h
    simp only [mergeRun]
    have hb : ¬ (m.role == cur.role) = true := fun hb => hne (beq_iff_eq.mp hb).symm
    rw [if_neg hb, ih m hrest]

lemma fixAlternation_true_id : ∀ l : List Message, fixAlternation true l = l := by
  intro l
  induction l with
  | nil => rfl
  | cons m rest ih =>
    simp only [fixAlternation]
    by_cases hsys : (m.role == some "system") = true
    · rw [if_pos hsys, ih]
    · rw [if_neg hsys, if_neg (by simp), ih]

lemma fixAlternation_false_shape (m : Message) (rest : List Message) :
    (∃ tail, fixAlternation false (m :: rest) = m :: tail)
    ∨ (∃ tail, fixAlternation false (m :: rest) = dummyUser :: m :: tail
        ∧ m.role = some "assistant") := by
  simp only [fixAlternation]
  by_cases hsys : (m.role == some "system") = true
  · rw [if_pos hsys]
    exact Or.inl ⟨_, rfl⟩
  · rw [if_neg hsys]
    by_cases hasst : (m.role == some "assistant") = true
    · rw [if_pos (by simp [hasst])]
      exact Or.inr ⟨_, rfl, beq_iff_eq.mp hasst⟩
    · rw [if_neg (by simp [hasst])]
      exact Or.inl ⟨_, rfl⟩

lemma fixAlternation_keep : ∀ (l : List Message) (b : Bool),
    (∀ m ∈ l, keepMsg m = true) → ∀ m' ∈ fixAlternation b l, keepMsg m' = true := by
  intro l
  induction l with
  | nil =>
    intro b h m' hm'
    simp [fixAlternation] at hm'
  | cons m rest ih =>
    intro b h m' hm'
    simp only [fixAlternation] at hm'
    by_cases hsys : (m.role == some "system") = true
    · rw [if_pos hsys] at hm'
      rcases List.mem_cons.mp hm' with rfl | hm'
      · exact h _ (List.mem_cons_self _ _)
      · exact ih b (fun y hy => h y (List.mem_cons_of_mem _ hy)) m' hm'
    · rw [if_neg hsys] at hm'
      by_cases hcond : (!b && (m.role == some "assistant")) = true
      · rw [if_pos hcond] at hm'
        rcases List.mem_cons.mp hm' with rfl | hm'
        · decide
        · rcases List.mem_cons.mp hm' with rfl | hm'
          · exact h _ (List.mem_cons_self _ _)
          · exact ih true (fun y hy => h y (List.mem_cons_of_mem _ hy)) m' hm'
      · rw [if_neg hcond] at hm'
        rcases List.mem_cons.mp hm' with rfl | hm'
        · exact h _ (List.mem_cons_self _ _)
        · exact ih true (fun y hy => h y (List.mem_cons_of_mem _ hy)) m' hm'

lemma fixAlternation_noAdj : ∀ (l : List Message) (b : Bool),
    noAdjSameRole l → noAdjSameRole (fixAlternation b l) := by
  intro l
  induction l with
  | nil => intro b h; exact trivial
  | cons m rest ih =>
    intro b h
    obtain ⟨hne, hrest⟩ := h
    by_cases hsys : (m.role == some "system") = true
    · simp only [fixAlternation, if_pos hsys]
      refine ⟨?_, ih b hrest⟩
      cases rest with
      | nil => exact trivial
      | cons m2 rest2 =>
        cases b with
        | true =>
          rw [fixAlternation_true_id]
          exact hne
        | false =>
          rcases fixAlternation_false_shape m2 rest2 with ⟨tail, htail⟩ | ⟨tail, htail, hasst⟩
          · rw [htail]
            exact hne
          · rw [htail]
            show m.role ≠ dummyUser.role
            rw [beq_iff_eq.mp hsys]
            simp [dummyUser]
    · by_cases hcond : (!b && (m.role == some "assistant")) = true
      · simp only [fixAlternation, if_neg hsys, if_pos hcond]
        rw [fixAlternation_true_id]
        have hasst : m.role = some "assistant" :=
          beq_iff_eq.mp (Bool.and_eq_true_iff.mp hcond).2
        refine ⟨?_, hne, hrest⟩
        show dummyUser.role ≠ m.role
        rw [hasst]
        simp [dummyUser]
      · simp only [fixAlternation, if_neg hsys, if_neg hcond]
        rw [fixAlternation_true_id]
        exact ⟨hne, hrest⟩

/-- The first non-system message, when there is one, is not an assistant
message (so `fixAlternation false` has nothing to fix). -/
def goodStart : List Message → Prop
  | [] => True
  | m :: rest =>
    if m.role == some "system" then goodStart rest else m.role ≠ some "assistant"

lemma goodStart_fix : ∀ l : List Message, goodStart (fixAlternation false l) := by
  intro l
  induction l with
  | nil => exact trivial
  | cons m rest ih =>
    by_cases hsys : (m.role == some "system") = true
    · simp only [fixAlternation, if_pos hsys]
      simp only [goodStart, if_pos hsys]
      exact ih
    · by_cases hasst : (m.role == some "assistant") = true
      · simp only [fixAlternation, if_neg hsys, if_pos (show (!false && (m.role == some "assistant")) = true by simp [hasst])]
        simp [goodStart, dummyUser]
      · simp only [fixAlternation, if_neg hsys, if_neg (show ¬ (!false && (m.role == some "assistant")) = true by simp [hasst])]
        simp only [goodStart, if_neg hsys]
        exact fun he => hasst (by rw [he]; rfl)

lemma goodStart_fix_id : ∀ l : List Message, goodStart l → fixAlternation false l = l := by
  intro l
  induction l with
  | nil => intro h; rfl
  | cons m rest ih =>
    intro h
    by_cases hsys : (m.role == some "system") = true
    · simp only [goodStart, if_pos hsys] at h
      simp only [fixAlternation, if_pos hsys, ih h]
    · simp only [goodStart, if_neg hsys] at h
      have hasst : ¬ (m.role == some "assistant") = true :=
        fun hb => h (beq_iff_eq.mp hb)
      simp only [fixAlternation, if_neg hsys,
        if_neg (show ¬ (!false && (m.role == some "assistant")) = true by simp [hasst])]
      rw [fixAlternation_true_id]

lemma normalize_openai_fixed (r : List Message)
    (hkeep : ∀ m' ∈ r, keepMsg m' = true) (hnoadj : noAdjSameRole r) :
    normalize_for_openai r = r := by
  unfold normalize_for_openai
  rw [List.filter_eq_self.mpr hkeep]
  cases r with
  | nil => rfl
  | cons m2 tl2 =>
    simp only [List.isEmpty_cons, Bool.false_eq_true, if_false]
    show mergeRun m2 tl2 = m2 :: tl2
    exact mergeRun_id tl2 m2 hnoadj

lemma normalize_gemini_fixed (r : List Message)
    (hkeep : ∀ m' ∈ r, keepMsg m' = true) (hnoadj : noAdjSameRole r)
    (hgood : goodStart r) :
    normalize_for_gemini r = r := by
  unfold normalize_for_gemini
  rw [List.filter_eq_self.mpr hkeep]
  cases r with
  | nil => rfl
  | cons m2 tl2 =>
    simp only [List.isEmpty_cons, Bool.false_eq_true, if_false]
    show fixAlternation false (mergeRun m2 tl2) = m2 :: tl2
    rw [mergeRun_id tl2 m2 hnoadj]
    exact goodStart_fix_id _ hgood

lemma filtered_keep (x : List Message) {m : Message} {tl : List Message}
    (hc : x.filter keepMsg = m :: tl) : ∀ y ∈ m :: tl, keepMsg y = true := by
  intro y hy
  have hmem : y ∈ x.filter keepMsg := by rw [hc]; exact hy
  exact (List.mem_filter.mp hmem).2

lemma normalize_for_openai_idem (x : List Message) :
    normalize_for_openai (normalize_for_openai x) = normalize_for_openai x := by
  rcases hc : x.filter keepMsg with _ | ⟨m, tl⟩
  · have h1 : normalize_for_openai x = [] := by
      unfold normalize_for_openai
      rw [hc]
      rfl
    rw [h1]
    rfl
  · have h1 : normalize_for_openai x = mergeRun m tl := by
      unfold normalize_for_openai
      rw [hc]
      rfl
    have hall := filtered_keep x hc
    rw [h1]
    exact normalize_openai_fixed _
      (mergeRun_keep tl m (hall m (List.mem_cons_self _ _))
        (fun y hy => hall y (List.mem_cons_of_mem _ hy)))
      (mergeRun_noAdj tl m)

lemma normalize_for_gemini_idem (x : List Message) :
    normalize_for_gemini (normalize_for_gemini x) = normalize_for_gemini x := by
  rcases hc : x.filter keepMsg with _ | ⟨m, tl⟩
  · have h1 : normalize_for_gemini x = [] := by
      unfold normalize_for_gemini
      rw [hc]
      rfl
    rw [h1]
    rfl
  · have h1 : normalize_for_gemini x = fixAlternation false (mergeRun m tl) := by
      unfold normalize_for_gemini
      rw [hc]
      rfl
    have hall := filtered_keep x hc
    rw [h1]
    exact normalize_gemini_fixed _
      (fixAlternation_keep _ false
        (mergeRun_keep tl m (hall m (List.mem_cons_self _ _))
          (fun y hy => hall y (List.mem_cons_of_mem _ hy))))
      (fixAlternation_noAdj _ false (mergeRun_noAdj tl m))
      (goodStart_fix _)

/-- Claim C8: message normalization is idempotent for both wire shapes: a
second pass of `normalize_for_openai` or `normalize_for_gemini` over its own
output changes nothing. -/
theorem claim_C8_normalization_idempotent (x : List Message) :
    normalize_for_openai (normalize_for_openai x) = normalize_for_openai x
    ∧ normalize_for_gemini (normalize_for_gemini x) = normalize_for_gemini x :=
  ⟨normalize_for_openai_idem x, normalize_for_gemini_idem x⟩
